import Mathlib

/-!
tubemp3: a verification development.

A shallow embedding of `main.go` (clipboard watcher that downloads the audio of
YouTube videos and playlists) together with theorems about it.

Texts are Lean strings, read as their sequence of characters.  The calls into
the Go standard library (`strings.Contains`, `strings.Split`, the two regular
expressions of `sanitize`) are embedded by their documented meaning; the calls
into the YouTube client, the file system and the JSON decoder are oracles.
A Go run-time panic (index out of range, nil dereference) is the `none` of an
`Option`, or the `crash` event of a goroutine.
-/

namespace Tubemp3

/-! ## Strings: `strings.Contains` and `strings.Split` -/

/-- Go `strings.HasPrefix` on character lists. -/
def hasPrefixL : List Char → List Char → Bool
  | _, [] => true
  | [], _ :: _ => false
  | c :: s, d :: p => c == d && hasPrefixL s p

/-- Go `strings.Index` on character lists: the position of the first
occurrence of `sep` in `s`, `none` for the `-1` of Go. -/
def indexL : List Char → List Char → Option Nat
  | [], sep => if hasPrefixL [] sep then some 0 else none
  | c :: s, sep =>
    if hasPrefixL (c :: s) sep then some 0
    else (indexL s sep).map (fun m => m + 1)

/-- Go `strings.Contains` on character lists. -/
def containsL (s substr : List Char) : Bool := (indexL s substr).isSome

/-- The loop of `strings.Split` (`genSplit`) for a non-empty separator: cut at
the first occurrence of `sep`, continue behind it; the first argument bounds
the number of cuts. -/
def splitLoop : Nat → List Char → List Char → List (List Char)
  | 0, s, _ => [s]
  | n + 1, s, sep =>
    match indexL s sep with
    | none => [s]
    | some m => s.take m :: splitLoop n (s.drop (m + sep.length)) sep

/-- Go `strings.Split` on character lists, for a non-empty separator.  A text
of length `n` has at most `n` non-overlapping occurrences of `sep`. -/
def splitL (s sep : List Char) : List (List Char) := splitLoop s.length s sep

/-- Go `strings.Contains`. -/
def Contains (s substr : String) : Bool := containsL s.data substr.data

/-- Go `strings.Split` (non-empty separator). -/
def Split (s sep : String) : List String := (splitL s.data sep.data).map String.mk

/-- The number of positions of `s` at which `sep` occurs (overlaps counted). -/
def occurrencesL : List Char → List Char → Nat
  | [], sep => if hasPrefixL [] sep then 1 else 0
  | c :: s, sep => (if hasPrefixL (c :: s) sep then 1 else 0) + occurrencesL s sep

/-- The number of positions of the text `s` at which `sep` occurs. -/
def occurrences (s sep : String) : Nat := occurrencesL s.data sep.data

/-! ## Constants of `main.go` -/

def videoUrl : String := "https://www.youtube.com/watch?v="
def shortVideoUrl : String := "https://youtu.be/"
def playlistUrl : String := "https://www.youtube.com/playlist?list="

/-! ## `sanitize` -/

/-- The class `\w` of Go regular expressions: `[0-9A-Za-z_]`. -/
def isWord (c : Char) : Bool :=
  (48 ≤ c.toNat && c.toNat ≤ 57) || (65 ≤ c.toNat && c.toNat ≤ 90)
    || (97 ≤ c.toNat && c.toNat ≤ 122) || c.toNat == 95

/-- The class `\s` of Go regular expressions: tab, newline, form feed,
carriage return, space. -/
def isSpace (c : Char) : Bool :=
  c.toNat == 9 || c.toNat == 10 || c.toNat == 12 || c.toNat == 13 || c.toNat == 32

/-- The first `ReplaceAllString` of `sanitize`: pattern `[^\w]`, replacement a
space. -/
def replaceNonWord (s : List Char) : List Char :=
  s.map (fun c => if isWord c then c else ' ')

/-- The second `ReplaceAllString` of `sanitize`: pattern `\s+`, replacement a
space.  The flag tells whether the previous character belonged to a run that
has been replaced already. -/
def collapseSpace : Bool → List Char → List Char
  | _, [] => []
  | inRun, c :: s =>
    if isSpace c then
      if inRun then collapseSpace true s else ' ' :: collapseSpace true s
    else c :: collapseSpace false s

/-- Go `sanitize`. -/
def sanitize (text : String) : String :=
  String.mk (collapseSpace false (replaceNonWord text.data))

/-- The texts that `sanitize` leaves as they are: word characters and single
spaces; the flag tells whether the previous character was a space. -/
def clean : Bool → List Char → Bool
  | _, [] => true
  | prev, c :: s =>
    if c = ' ' then !prev && clean true s else isWord c && clean false s

/-! ## `getYoutubeId`, `isYoutubeResource` -/

/-- Go `getYoutubeId`; `none` is the panic of an index `[1]` out of range. -/
def getYoutubeId (url : String) : Option (String × Bool) :=
  if Contains url videoUrl then
    ((Split url "watch?v=")[1]?).map (fun id => (id, false))
  else if Contains url shortVideoUrl then
    ((Split url "be/")[1]?).map (fun id => (id, false))
  else if Contains url playlistUrl then
    ((Split url "playlist?list=")[1]?).map (fun id => (id, true))
  else
    some ("", false)

/-- The three URL shapes that `getYoutubeId` knows, in the order of its
tests. -/
inductive Shape where
  | long
  | short
  | playlist
  deriving DecidableEq, Repr

/-- The marker of a shape: the constant that `strings.Contains` looks for. -/
def Shape.marker : Shape → String
  | Shape.long => videoUrl
  | Shape.short => shortVideoUrl
  | Shape.playlist => playlistUrl

/-- The separator of a shape: the text that `strings.Split` cuts at in the
branch of that shape. -/
def Shape.separator : Shape → String
  | Shape.long => "watch?v="
  | Shape.short => "be/"
  | Shape.playlist => "playlist?list="

/-- The branch that `getYoutubeId` takes on a text: the first shape, in the
order of the tests, whose marker the text contains. -/
def shapeOf (url : String) : Option Shape :=
  if Contains url videoUrl then some Shape.long
  else if Contains url shortVideoUrl then some Shape.short
  else if Contains url playlistUrl then some Shape.playlist
  else none

/-- Go `isYoutubeResource`. -/
def isYoutubeResource (text : String) : Bool := Contains text "youtube.com"

/-! ## `getAudioFormat` -/

/-- The fields of `youtube.Format` that the program reads. -/
structure Format where
  MimeType : String
  AudioChannels : Int
  deriving DecidableEq, Repr

/-- The fields of `youtube.Video` that the program reads. -/
structure Video where
  Title : String
  Author : String
  Formats : List Format
  deriving DecidableEq, Repr

/-- The condition of the loop of `getAudioFormat`. -/
def isAudioMp4 (format : Format) : Bool :=
  decide (format.AudioChannels > 0) && Contains format.MimeType "audio/mp4"

/-- The `for ... range video.Formats` loop of `getAudioFormat`; `none` when the
loop ends without returning. -/
def getAudioFormatLoop : List Format → Option Format
  | [] => none
  | format :: rest => if isAudioMp4 format then some format else getAudioFormatLoop rest

/-- Go `getAudioFormat`; `none` is the panic of `video.Formats[0]` on an empty
list. -/
def getAudioFormat (video : Video) : Option Format :=
  match getAudioFormatLoop video.Formats with
  | some format => some format
  | none => video.Formats[0]?

/-! ## Configuration -/

/-- Go `Configuration`. -/
structure Configuration where
  MaxDownloads : Int
  LogPath : String
  DownloadPath : String
  deriving DecidableEq, Repr

/-- The package variables that `readConfigFile` assigns; `workers` is the
capacity of the channel `workers`. -/
structure Globals where
  maxDownloads : Int
  logPath : String
  downloadPath : String
  workers : Nat
  deriving DecidableEq, Repr

/-- The initial values of the package variables (the `var` block). -/
def initialGlobals : Globals :=
  { maxDownloads := 5, logPath := "./log.log", downloadPath := ".", workers := 5 }

/-- What `decoder.Decode` takes from `config.json`: the value of each field
that the file supplies and that decodes, and the error of the decoder. -/
structure Decoded where
  MaxDownloads : Option Int
  LogPath : Option String
  DownloadPath : Option String
  err : Option String
  deriving DecidableEq, Repr

/-- The effect of `decoder.Decode(&configuration)`: the supplied fields are
stored, the others are left as they are. -/
def Decode (d : Decoded) (c : Configuration) : Configuration :=
  { MaxDownloads := d.MaxDownloads.getD c.MaxDownloads,
    LogPath := d.LogPath.getD c.LogPath,
    DownloadPath := d.DownloadPath.getD c.DownloadPath }

/-- Go `readConfigFile`: the new package variables and the error line that is
logged; `none` is the panic of `make(chan struct{}, maxDownloads)` on a
negative size. -/
def readConfigFile (d : Decoded) : Option (Globals × List String) :=
  let configuration := Decode d { MaxDownloads := 0, LogPath := "", DownloadPath := "" }
  if configuration.MaxDownloads < 0 then none
  else
    some ({ maxDownloads := configuration.MaxDownloads,
            logPath := configuration.LogPath,
            downloadPath := configuration.DownloadPath,
            workers := configuration.MaxDownloads.toNat },
          match d.err with
          | some e => [e]
          | none => [])

/-- The start of `main`: `readConfigFile` runs when `config.json` exists, and
the package variables keep their initial values when it does not. -/
def configure (found : Bool) (d : Decoded) : Option Globals :=
  if found then (readConfigFile d).map (fun r => r.1) else some initialGlobals

/-! ## The YouTube client and the file system -/

/-- The fields of `youtube.PlaylistEntry` that matter. -/
structure PlaylistEntry where
  ID : String
  deriving DecidableEq, Repr

/-- The fields of `youtube.Playlist` that the program reads. -/
structure Playlist where
  Title : String
  Author : String
  Videos : List PlaylistEntry
  deriving DecidableEq, Repr

/-- The outside world of the program.  A result `(v, err)` is the pair that the
Go call returns: `v = none` is a nil pointer, `err = none` is a nil error.
`CopyPanics` tells, for a file name, whether `io.Copy(file, stream)` panics
(it reads from `stream`, which is nil after a failed `GetStream`). -/
structure World where
  GetVideo : String → Option Video × Option String
  GetPlaylist : String → Option Playlist × Option String
  VideoFromPlaylistEntry : PlaylistEntry → Option Video × Option String
  GetStream : Video → Format → Option String
  Create : String → Option String
  CopyPanics : String → Bool

/-! ## Goroutines as event lists -/

/-- What a goroutine does, one step at a time. -/
inductive Event where
  /-- The send `workers <- struct` of `downloadAudio`. -/
  | acquire
  /-- The receive `<-workers` of the deferred function. -/
  | release
  /-- The call `wg.Add(1)` on the wait group `wg`. -/
  | wgAdd (wg : Nat)
  /-- The call `wg.Done()`. -/
  | wgDone (wg : Nat)
  /-- The call `wg.Wait()`. -/
  | wgWait (wg : Nat)
  /-- A line written by `log.Println` or `log.Printf`. -/
  | log (line : String)
  /-- The call of `os.Mkdir`. -/
  | mkdir (path : String)
  /-- The call of `client.GetStream`. -/
  | getStream
  /-- The call of `os.Create`. -/
  | create (fileName : String)
  /-- The call of `io.Copy`. -/
  | copy (fileName : String)
  /-- The deferred `file.Close()`. -/
  | close (fileName : String)
  /-- The statement `go downloadAudio(video, filePath, wg)`. -/
  | spawn (video : Option Video) (filePath : String) (wg : Option Nat)
  /-- An unrecovered panic ends the program, after the deferred calls. -/
  | crash
  deriving DecidableEq, Repr

/-- The `if err != nil { log.Println(err.Error()) }` that follows most calls. -/
def logErr : Option String → List Event
  | some e => [Event.log e]
  | none => []

/-- The single quote of the format string of `videoMessage`. -/
def quote : String := String.singleton (Char.ofNat 39)

/-- The statements of `downloadAudio` after `workers <- struct{}{}`, up to the
return or the panic: the events, with the deferred `file.Close()` at its place
in the exit sequence, and whether the body panicked. -/
def downloadAudioBody (w : World) (video : Option Video) (filePath : String) :
    List Event × Bool :=
  match video with
  | none => ([], true)
  | some v =>
    let videoTitle := sanitize v.Title
    let videoMessage := videoTitle ++ " by " ++ quote ++ v.Author ++ quote ++ "!\n"
    let started := [Event.log ("Downloading " ++ videoMessage)]
    match getAudioFormat v with
    | none => (started, true)
    | some videoFormat =>
      let opened := Event.getStream :: logErr (w.GetStream v videoFormat)
      let fileName := filePath ++ videoTitle ++ ".mp3"
      let created := Event.create fileName :: logErr (w.Create fileName)
      if w.CopyPanics fileName then
        (started ++ opened ++ created ++ [Event.copy fileName, Event.close fileName], true)
      else
        (started ++ opened ++ created ++
          [Event.copy fileName, Event.log ("Finished " ++ videoMessage),
           Event.close fileName], false)

/-- The deferred function of `downloadAudio`: `<-workers`, then `wg.Done()`
when `wg` is not nil. -/
def downloadAudioDeferred : Option Nat → List Event
  | some wg => [Event.release, Event.wgDone wg]
  | none => [Event.release]

/-- Go `downloadAudio`, as the sequence of events of the goroutine that runs
it.  The deferred function runs on return and on panic alike; a panic then
ends the program. -/
def downloadAudio (w : World) (video : Option Video) (filePath : String)
    (wg : Option Nat) : List Event :=
  Event.acquire :: (downloadAudioBody w video filePath).1 ++ downloadAudioDeferred wg
    ++ (if (downloadAudioBody w video filePath).2 then [Event.crash] else [])

/-- The body of the loop of `downloadPlaylist`, for one entry. -/
def playlistMember (w : World) (folderPath : String) (wg : Nat)
    (entry : PlaylistEntry) : List Event :=
  Event.wgAdd wg :: logErr (w.VideoFromPlaylistEntry entry).2
    ++ [Event.spawn (w.VideoFromPlaylistEntry entry).1 folderPath (some wg)]

/-- The loop of `downloadPlaylist`. -/
def playlistLoop (w : World) (folderPath : String) (wg : Nat) :
    List PlaylistEntry → List Event
  | [] => []
  | entry :: rest => playlistMember w folderPath wg entry ++ playlistLoop w folderPath wg rest

/-- Go `downloadPlaylist`, as the sequence of events of the goroutine that
runs it; `wg` names its wait group. -/
def downloadPlaylist (w : World) (downloadPath : String) (url : String) (wg : Nat) :
    List Event :=
  logErr (w.GetPlaylist url).2 ++
  match (w.GetPlaylist url).1 with
  | none => [Event.crash]
  | some playlist =>
    let playlistTitle := sanitize playlist.Title
    let folderPath := downloadPath ++ "/" ++ playlistTitle ++ "/"
    let playlistMessage :=
      if playlist.Author.length < 1 then playlistTitle
      else playlistTitle ++ " by " ++ playlist.Author
    [Event.mkdir folderPath, Event.log ("Downloading Playlist " ++ playlistMessage ++ "\n")]
      ++ playlistLoop w folderPath wg playlist.Videos
      ++ [Event.wgWait wg, Event.log ("Playlist Finished " ++ playlistMessage ++ "\n")]

/-! ## The running program -/

/-- A goroutine: the events it still has to do, and whether it has sent on
`workers` and not yet received (instrumentation). -/
structure Proc where
  prog : List Event
  holding : Bool
  deriving DecidableEq, Repr

/-- The state of the running program. -/
structure Sys where
  /-- The capacity `cap(workers)`. -/
  cap : Nat
  /-- The number `len(workers)` of values in the channel. -/
  occupied : Nat
  /-- The package variable `downloadPath`. -/
  downloadPath : String
  /-- The counters of the wait groups, one per playlist goroutine. -/
  wgs : List Nat
  /-- The goroutines started by `go`. -/
  procs : List Proc
  /-- The lines logged so far. -/
  logs : List String
  /-- Whether the program has ended by a panic. -/
  crashed : Bool
  deriving DecidableEq, Repr

/-- The state at the time `clipboardWatcher` starts. -/
def boot (g : Globals) : Sys :=
  { cap := g.workers, occupied := 0, downloadPath := g.downloadPath, wgs := [],
    procs := [], logs := [], crashed := false }

/-- A send on a channel of capacity `cap` holding `n` values: `none` when the
sender blocks. -/
def chanSend (cap n : Nat) : Option Nat := if n < cap then some (n + 1) else none

/-- A receive on a channel holding `n` values: `none` when the receiver
blocks. -/
def chanRecv (n : Nat) : Option Nat := if 0 < n then some (n - 1) else none

/-- The effect of a sequence of events on `len(workers)`, the goroutine
running alone: `none` when it blocks. -/
def chanRun (cap : Nat) : Nat → List Event → Option Nat
  | n, [] => some n
  | n, Event.acquire :: es => (chanSend cap n).bind (fun m => chanRun cap m es)
  | n, Event.release :: es => (chanRecv n).bind (fun m => chanRun cap m es)
  | n, _ :: es => chanRun cap n es

/-- The effect of the event `e` of goroutine `i`, which holds a slot or not as
`holding` tells and goes on with `rest`; `none` when the goroutine blocks. -/
def effect (w : World) (s : Sys) (i : Nat) (holding : Bool) (rest : List Event) :
    Event → Option Sys
  | Event.acquire =>
    (chanSend s.cap s.occupied).map (fun n =>
      { s with occupied := n, procs := s.procs.set i { prog := rest, holding := true } })
  | Event.release =>
    (chanRecv s.occupied).map (fun n =>
      { s with occupied := n, procs := s.procs.set i { prog := rest, holding := false } })
  | Event.wgAdd g =>
    some { s with
      wgs := s.wgs.modify (fun n => n + 1) g,
      procs := s.procs.set i { prog := rest, holding := holding } }
  | Event.wgDone g =>
    match s.wgs[g]? with
    | some (n + 1) =>
      some { s with
        wgs := s.wgs.set g n,
        procs := s.procs.set i { prog := rest, holding := holding } }
    | _ =>
      some { s with
        crashed := true,
        procs := s.procs.set i { prog := rest, holding := holding } }
  | Event.wgWait g =>
    if s.wgs[g]? = some 0 then
      some { s with procs := s.procs.set i { prog := rest, holding := holding } }
    else none
  | Event.log line =>
    some { s with
      logs := s.logs ++ [line],
      procs := s.procs.set i { prog := rest, holding := holding } }
  | Event.spawn video filePath wg =>
    some { s with
      procs := s.procs.set i { prog := rest, holding := holding }
        ++ [{ prog := downloadAudio w video filePath wg, holding := false }] }
  | Event.crash =>
    some { s with
      crashed := true,
      procs := s.procs.set i { prog := rest, holding := holding } }
  | _ => some { s with procs := s.procs.set i { prog := rest, holding := holding } }

/-- Goroutine `i` does its next event; `none` when there is no such step
(the goroutine blocks, has ended, or the program has ended). -/
def exec (w : World) (s : Sys) (i : Nat) : Option Sys :=
  if s.crashed then none
  else
    match s.procs[i]? with
    | none => none
    | some p =>
      match p.prog with
      | [] => none
      | e :: rest => effect w s i p.holding rest e

/-- Go `download`, called by the watcher: the new state and the error it
returns. -/
def download (w : World) (s : Sys) (url : String) : Sys × Option String :=
  match getYoutubeId url with
  | none => ({ s with crashed := true }, none)
  | some (id, isPlaylist) =>
    if id.length = 0 then (s, some "No valid youtube URL detected")
    else if isPlaylist then
      ({ s with
          wgs := s.wgs ++ [0],
          procs := s.procs ++
            [{ prog := downloadPlaylist w s.downloadPath url s.wgs.length, holding := false }] },
        none)
    else
      ({ s with
          logs := s.logs ++ (match (w.GetVideo url).2 with | some e => [e] | none => []),
          procs := s.procs ++
            [{ prog := downloadAudio w (w.GetVideo url).1 "" none, holding := false }] },
        none)

/-- One round of the loop of `clipboardWatcher`, for the text `data`. -/
def clipboardWatcher (w : World) (s : Sys) (data : String) : Option Sys :=
  if s.crashed then none
  else if isYoutubeResource data then
    match download w s data with
    | (t, some e) => some { t with logs := t.logs ++ [e] }
    | (t, none) => some t
  else some s

/-- The steps of the program: the clipboard delivers a text, or a goroutine
does its next event. -/
inductive Action where
  | clip (data : String)
  | sched (i : Nat)
  deriving DecidableEq, Repr

/-- One step. -/
def step (w : World) (s : Sys) : Action → Option Sys
  | Action.clip data => clipboardWatcher w s data
  | Action.sched i => exec w s i

/-- A sequence of steps. -/
def run (w : World) : Sys → List Action → Option Sys
  | s, [] => some s
  | s, a :: as => (step w s a).bind (fun t => run w t as)

/-- The number of goroutines that hold a slot of `workers`. -/
def holders (s : Sys) : Nat := s.procs.countP (fun p => p.holding)

/-- The events on the channel `workers`. -/
def isSlot : Event → Bool
  | Event.acquire => true
  | Event.release => true
  | _ => false

/-- A goroutine is well placed on `workers`: from where it stands, holding a
slot or not, its sends and receives on the channel alternate. -/
def okProc (p : Proc) : Prop :=
  (chanRun 1 (if p.holding then 1 else 0) p.prog).isSome = true

/-- The invariant of `workers`: the goroutines that hold a slot are as many as
the values in the channel, which are at most its capacity, and every goroutine
is well placed. -/
def InvP (cap occupied : Nat) (procs : List Proc) : Prop :=
  procs.countP (fun p => p.holding) = occupied ∧ occupied ≤ cap ∧ ∀ p ∈ procs, okProc p

/-- The invariant on a state, for the capacity `c`. -/
def Inv (c : Nat) (s : Sys) : Prop := s.cap = c ∧ InvP c s.occupied s.procs

/-- A world for the examples: the video `gone` and the playlist member `m2`
do not resolve, every other call succeeds. -/
def demoWorld : World :=
  { GetVideo := fun url =>
      if url = "https://www.youtube.com/watch?v=gone" then (none, some "cannot resolve gone")
      else (some { Title := "song", Author := "band",
                   Formats := [{ MimeType := "audio/mp4", AudioChannels := 2 }] }, none),
    GetPlaylist := fun _ =>
      (some { Title := "mix", Author := "dj", Videos := [⟨"m1"⟩, ⟨"m2"⟩, ⟨"m3"⟩] }, none),
    VideoFromPlaylistEntry := fun entry =>
      if entry.ID = "m2" then (none, some "cannot resolve m2")
      else (some { Title := entry.ID, Author := "dj",
                   Formats := [{ MimeType := "audio/mp4", AudioChannels := 2 }] }, none),
    GetStream := fun _ _ => none,
    Create := fun _ => none,
    CopyPanics := fun _ => false }

/-- The package variables after a `config.json` with `MaxDownloads` 2. -/
def twoWorkers : Globals :=
  { maxDownloads := 2, logPath := "./log.log", downloadPath := ".", workers := 2 }

/-- The link of the playlist of the examples. -/
def mixUrl : String := "https://www.youtube.com/playlist?list=mix"

/-- The playlist goroutine of the examples, up to `wg.Wait()`: three members
registered and started. -/
def fanOut : List Action := Action.clip mixUrl :: List.replicate 9 (Action.sched 0)

/-! ## Lemmas on strings -/

theorem indexL_cons (c : Char) (s sep : List Char) :
    indexL (c :: s) sep =
      if hasPrefixL (c :: s) sep then some 0 else (indexL s sep).map (fun m => m + 1) := rfl

theorem occurrencesL_cons (c : Char) (s sep : List Char) :
    occurrencesL (c :: s) sep =
      (if hasPrefixL (c :: s) sep then 1 else 0) + occurrencesL s sep := rfl

theorem hasPrefixL_append (sep r : List Char) : hasPrefixL (sep ++ r) sep = true := by
  induction sep with
  | nil => cases r <;> rfl
  | cons d sep ih => simp [hasPrefixL, ih]

theorem hasPrefixL_split (s sep : List Char) (h : hasPrefixL s sep = true) :
    ∃ r, s = sep ++ r := by
  induction sep generalizing s with
  | nil => exact ⟨s, rfl⟩
  | cons d sep ih =>
    cases s with
    | nil => simp [hasPrefixL] at h
    | cons c s =>
      simp only [hasPrefixL, Bool.and_eq_true, beq_iff_eq] at h
      obtain ⟨r, hr⟩ := ih s h.2
      exact ⟨r, by rw [h.1, hr]; rfl⟩

theorem indexL_split (s sep : List Char) (m : Nat) (h : indexL s sep = some m) :
    s = s.take m ++ sep ++ s.drop (m + sep.length) := by
  induction s generalizing m with
  | nil =>
    cases sep with
    | nil => simp
    | cons d sep => simp [indexL, hasPrefixL] at h
  | cons c s ih =>
    unfold indexL at h
    split at h
    · rename_i hp
      obtain ⟨r, hr⟩ := hasPrefixL_split _ _ hp
      cases h
      rw [hr]
      simp
    · cases hm : indexL s sep with
      | none => simp [hm] at h
      | some k =>
        simp only [hm, Option.map, Option.some.injEq] at h
        subst h
        have := ih k hm
        simp only [List.take_succ_cons, List.cons_append, Nat.add_right_comm k 1,
          List.drop_succ_cons]
        exact congrArg (List.cons c) this

theorem indexL_of_occurs (x sep r : List Char) : (indexL (x ++ sep ++ r) sep).isSome = true := by
  induction x with
  | nil =>
    have hp := hasPrefixL_append sep r
    simp only [List.nil_append]
    generalize sep ++ r = t at hp
    cases t <;> simp [indexL, hp]
  | cons c x ih =>
    rw [List.cons_append, List.cons_append, indexL_cons]
    split
    · rfl
    · simpa using ih

theorem containsL_iff (s t : List Char) :
    containsL s t = true ↔ ∃ x y, s = x ++ t ++ y := by
  constructor
  · intro h
    unfold containsL at h
    cases hm : indexL s t with
    | none => simp [hm] at h
    | some m => exact ⟨_, _, indexL_split s t m hm⟩
  · rintro ⟨x, y, rfl⟩
    exact indexL_of_occurs x t y

theorem containsL_suffix (s a sep : List Char) (h : containsL s (a ++ sep) = true) :
    containsL s sep = true := by
  obtain ⟨x, y, rfl⟩ := (containsL_iff _ _).1 h
  exact (containsL_iff _ _).2 ⟨x ++ a, y, by simp⟩

theorem splitLoop_length_pos (n : Nat) (s sep : List Char) : 1 ≤ (splitLoop n s sep).length := by
  cases n with
  | zero => simp [splitLoop]
  | succ n =>
    unfold splitLoop
    split <;> simp

theorem splitL_length_of_contains (s sep : List Char) (hsep : sep ≠ [])
    (h : containsL s sep = true) : 2 ≤ (splitL s sep).length := by
  unfold containsL at h
  cases hm : indexL s sep with
  | none => simp [hm] at h
  | some m =>
    cases s with
    | nil =>
      cases sep with
      | nil => exact absurd rfl hsep
      | cons d sep => simp [indexL, hasPrefixL] at hm
    | cons c s =>
      have := splitLoop_length_pos s.length ((c :: s).drop (m + sep.length)) sep
      simp only [splitL, List.length_cons, splitLoop, hm, ge_iff_le]
      omega

theorem occurrencesL_append_le (x s sep : List Char) :
    occurrencesL s sep ≤ occurrencesL (x ++ s) sep := by
  induction x with
  | nil => exact Nat.le_refl _
  | cons c x ih =>
    rw [List.cons_append, occurrencesL_cons]
    omega

theorem occurrencesL_at (sep r : List Char) (hsep : sep ≠ []) :
    occurrencesL (sep ++ r) sep = 1 + occurrencesL (sep.tail ++ r) sep := by
  cases sep with
  | nil => exact absurd rfl hsep
  | cons d sep =>
    have hp := hasPrefixL_append (d :: sep) r
    simp only [List.cons_append] at hp
    simp [occurrencesL, hp]

theorem indexL_none_of_occurrencesL (s sep : List Char) (h : occurrencesL s sep = 0) :
    indexL s sep = none := by
  induction s with
  | nil =>
    unfold occurrencesL at h
    unfold indexL
    split at h
    · cases h
    · rename_i hp
      simp [hp]
  | cons c s ih =>
    unfold occurrencesL at h
    unfold indexL
    split at h
    · omega
    · rename_i hp
      simp [hp, ih (by omega)]

theorem indexL_of_occurrencesL_one (x sep r : List Char) (hsep : sep ≠ [])
    (h : occurrencesL (x ++ sep ++ r) sep = 1) : indexL (x ++ sep ++ r) sep = some x.length := by
  induction x with
  | nil =>
    cases sep with
    | nil => exact absurd rfl hsep
    | cons d sep =>
      have hp := hasPrefixL_append (d :: sep) r
      simp only [List.cons_append] at hp
      simp [indexL, hp]
  | cons c x ih =>
    have h1 := occurrencesL_append_le x (sep ++ r) sep
    have h2 := occurrencesL_at sep r hsep
    rw [← List.append_assoc] at h1
    rw [List.cons_append, List.cons_append, occurrencesL_cons] at h
    rw [List.cons_append, List.cons_append, indexL_cons]
    split
    · rename_i hp
      simp only [hp, if_true] at h
      omega
    · rename_i hp
      simp only [hp] at h
      rw [ih (by simpa using h)]
      rfl

theorem occurrencesL_rest (x sep r : List Char) (hsep : sep ≠ [])
    (h : occurrencesL (x ++ sep ++ r) sep = 1) : occurrencesL r sep = 0 := by
  have h1 := occurrencesL_append_le x (sep ++ r) sep
  have h2 := occurrencesL_at sep r hsep
  have h3 := occurrencesL_append_le sep.tail r sep
  rw [← List.append_assoc] at h1
  omega

theorem splitLoop_none (n : Nat) (s sep : List Char) (h : indexL s sep = none) :
    splitLoop n s sep = [s] := by
  cases n with
  | zero => rfl
  | succ n => simp [splitLoop, h]

theorem indexL_bound (s sep : List Char) (m : Nat) (hsep : sep ≠ [])
    (h : indexL s sep = some m) : m + sep.length ≤ s.length := by
  have := congrArg List.length (indexL_split s sep m h)
  have hpos : 0 < sep.length := List.length_pos.2 hsep
  simp only [List.length_append, List.length_take, List.length_drop] at this
  omega

/-- The bound on the cuts in `splitL` is never reached before the separator
stops occurring: every bound that is at least the length of the text gives the
same parts. -/
theorem splitLoop_bound (n m : Nat) (s sep : List Char) (hsep : sep ≠ [])
    (hn : s.length ≤ n) (hm : s.length ≤ m) : splitLoop n s sep = splitLoop m s sep := by
  induction n generalizing m s with
  | zero =>
    have hs : s = [] := List.length_eq_zero.1 (Nat.le_zero.1 hn)
    subst hs
    cases sep with
    | nil => exact absurd rfl hsep
    | cons d sep => cases m <;> simp [splitLoop, indexL, hasPrefixL]
  | succ n ih =>
    cases m with
    | zero =>
      have hs : s = [] := List.length_eq_zero.1 (Nat.le_zero.1 hm)
      subst hs
      cases sep with
      | nil => exact absurd rfl hsep
      | cons d sep => simp [splitLoop, indexL, hasPrefixL]
    | succ m =>
      simp only [splitLoop]
      cases hi : indexL s sep with
      | none => rfl
      | some k =>
        have hb := indexL_bound s sep k hsep hi
        have hpos : 0 < sep.length := List.length_pos.2 hsep
        have hd : (s.drop (k + sep.length)).length = s.length - (k + sep.length) :=
          List.length_drop _ _
        simp only
        rw [ih m (s.drop (k + sep.length)) (by omega) (by omega)]

/-- A text in which the separator occurs at one place only is split in two
parts there. -/
theorem splitL_of_occurrencesL_one (x sep r : List Char) (hsep : sep ≠ [])
    (h : occurrencesL (x ++ sep ++ r) sep = 1) : splitL (x ++ sep ++ r) sep = [x, r] := by
  have hi := indexL_of_occurrencesL_one x sep r hsep h
  have hr := indexL_none_of_occurrencesL r sep (occurrencesL_rest x sep r hsep h)
  have hlen : (x ++ sep ++ r).length = (x.length + r.length + (sep.length - 1)) + 1 := by
    have : 0 < sep.length := List.length_pos.2 hsep
    simp only [List.length_append]
    omega
  unfold splitL
  rw [hlen]
  simp only [splitLoop, hi]
  rw [splitLoop_none _ _ _ (by simpa [List.append_assoc] using hr)]
  simp [List.append_assoc]

/-! ## Lemmas on `sanitize` -/

theorem isSpace_space : isSpace ' ' = true := by decide

theorem isWord_space : isWord ' ' = false := by decide

theorem isSpace_of_isWord (c : Char) (h : isWord c = true) : isSpace c = false := by
  simp only [isWord, Bool.or_eq_true, Bool.and_eq_true, decide_eq_true_eq, beq_iff_eq] at h
  simp only [isSpace, Bool.or_eq_false_iff, beq_eq_false_iff_ne, ne_eq]
  omega

theorem clean_collapseSpace (b : Bool) (s : List Char)
    (h : ∀ c ∈ s, isWord c = true ∨ isSpace c = true) : clean b (collapseSpace b s) = true := by
  induction s generalizing b with
  | nil => rfl
  | cons c s ih =>
    have hs : ∀ d ∈ s, isWord d = true ∨ isSpace d = true :=
      fun d hd => h d (List.mem_cons_of_mem c hd)
    unfold collapseSpace
    by_cases hc : isSpace c = true
    · cases b
      · simp [hc, clean, ih true hs]
      · simp [hc, ih true hs]
    · have hw : isWord c = true := by
        rcases h c (List.mem_cons_self c s) with hw | hw
        · exact hw
        · exact absurd hw hc
      have hne : c ≠ ' ' := by
        intro he
        rw [he] at hc
        exact hc isSpace_space
      simp [hc, clean, hne, hw, ih false hs]

theorem replaceNonWord_class (s : List Char) :
    ∀ c ∈ replaceNonWord s, isWord c = true ∨ isSpace c = true := by
  intro c hc
  simp only [replaceNonWord, List.mem_map] at hc
  obtain ⟨d, _, hd⟩ := hc
  by_cases hw : isWord d = true
  · simp only [hw, if_true] at hd
    exact Or.inl (hd ▸ hw)
  · simp only [hw] at hd
    exact Or.inr (hd ▸ isSpace_space)

theorem replaceNonWord_of_clean (b : Bool) (s : List Char) (h : clean b s = true) :
    replaceNonWord s = s := by
  induction s generalizing b with
  | nil => rfl
  | cons c s ih =>
    unfold clean at h
    by_cases hc : c = ' '
    · simp only [hc, if_true, Bool.and_eq_true] at h
      have := ih true h.2
      simp only [replaceNonWord] at this
      simp [replaceNonWord, hc, isWord_space, this]
    · simp only [hc, if_false, Bool.and_eq_true] at h
      have := ih false h.2
      simp only [replaceNonWord] at this
      simp [replaceNonWord, h.1, this]

theorem collapseSpace_of_clean (b : Bool) (s : List Char) (h : clean b s = true) :
    collapseSpace b s = s := by
  induction s generalizing b with
  | nil => rfl
  | cons c s ih =>
    unfold clean at h
    by_cases hc : c = ' '
    · simp only [hc, if_true, Bool.and_eq_true, Bool.not_eq_true'] at h
      simp [collapseSpace, hc, isSpace_space, h.1, ih true h.2]
    · simp only [hc, if_false, Bool.and_eq_true] at h
      simp [collapseSpace, isSpace_of_isWord c h.1, ih false h.2]

/-! ## Theorems on the pure functions -/

/-- C8: `sanitize` is idempotent: on every text, the empty one included,
sanitizing a second time changes nothing. -/
theorem sanitize_idempotent (x : String) : sanitize (sanitize x) = sanitize x := by
  have hc := clean_collapseSpace false (replaceNonWord x.data) (replaceNonWord_class x.data)
  simp only [sanitize]
  rw [replaceNonWord_of_clean false _ hc, collapseSpace_of_clean false _ hc]

theorem Split_length_of_marker (url a sep : String) (hsep : sep.data ≠ [])
    (h : Contains url (a ++ sep) = true) : 2 ≤ (Split url sep).length := by
  simp only [Contains, String.data_append] at h
  simp only [Split, List.length_map]
  exact splitL_length_of_contains _ _ hsep (containsL_suffix _ _ _ h)

theorem getElem?_one_of_length {α : Type} (l : List α) (h : 2 ≤ l.length) :
    ∃ a, l[1]? = some a := by
  match l, h with
  | _ :: a :: _, _ => exact ⟨a, by simp⟩

theorem Split_of_once (text p a sep r : String)
    (ht : text.data = p.data ++ a.data ++ sep.data ++ r.data) (hsep : sep.data ≠ [])
    (h : occurrences text sep = 1) : (Split text sep)[1]? = some r := by
  simp only [occurrences, ht] at h
  simp only [Split, ht]
  rw [splitL_of_occurrencesL_one (p.data ++ a.data) sep.data r.data hsep h]
  rfl

/-- C9: `getYoutubeId` returns on every text: in each of the three branches
the split has at least two parts, so the index `[1]` is in range. -/
theorem getYoutubeId_total (url : String) :
    (∃ r, getYoutubeId url = some r) ∧
    (Contains url videoUrl = true → 2 ≤ (Split url "watch?v=").length) ∧
    (Contains url shortVideoUrl = true → 2 ≤ (Split url "be/").length) ∧
    (Contains url playlistUrl = true → 2 ≤ (Split url "playlist?list=").length) := by
  have h1 : Contains url videoUrl = true → 2 ≤ (Split url "watch?v=").length :=
    fun h => Split_length_of_marker url "https://www.youtube.com/" "watch?v=" (by decide) h
  have h2 : Contains url shortVideoUrl = true → 2 ≤ (Split url "be/").length :=
    fun h => Split_length_of_marker url "https://youtu." "be/" (by decide) h
  have h3 : Contains url playlistUrl = true → 2 ≤ (Split url "playlist?list=").length :=
    fun h => Split_length_of_marker url "https://www.youtube.com/" "playlist?list=" (by decide) h
  refine ⟨?_, h1, h2, h3⟩
  unfold getYoutubeId
  by_cases c1 : Contains url videoUrl = true
  · obtain ⟨a, ha⟩ := getElem?_one_of_length _ (h1 c1)
    exact ⟨(a, false), by simp [c1, ha]⟩
  · by_cases c2 : Contains url shortVideoUrl = true
    · obtain ⟨a, ha⟩ := getElem?_one_of_length _ (h2 c2)
      exact ⟨(a, false), by simp [c1, c2, ha]⟩
    · by_cases c3 : Contains url playlistUrl = true
      · obtain ⟨a, ha⟩ := getElem?_one_of_length _ (h3 c3)
        exact ⟨(a, true), by simp [c1, c2, c3, ha]⟩
      · exact ⟨("", false), by simp [c1, c2, c3]⟩

/-- C5, as the code has it: on a text `p ++ marker ++ r`, where the marker is
that of the branch the function takes and the separator of that branch occurs
at one place of the text only, `getYoutubeId` returns `r`, the text behind the
marker, and `isPlaylist` is true exactly for the playlist shape. -/
theorem getYoutubeId_after_marker (k : Shape) (p r : String)
    (hk : shapeOf (p ++ k.marker ++ r) = some k)
    (h : occurrences (p ++ k.marker ++ r) k.separator = 1) :
    getYoutubeId (p ++ k.marker ++ r) = some (r, decide (k = Shape.playlist)) := by
  unfold shapeOf at hk
  unfold getYoutubeId
  cases k with
  | long =>
    have c1 : Contains (p ++ Shape.long.marker ++ r) videoUrl = true := by
      by_contra hc
      rw [if_neg hc] at hk
      split_ifs at hk <;> cases hk
    have hs := Split_of_once (p ++ Shape.long.marker ++ r) p "https://www.youtube.com/"
      "watch?v=" r (by simp [String.data_append, Shape.marker, videoUrl]) (by decide) h
    simp [c1, hs]
  | short =>
    have c1 : ¬ Contains (p ++ Shape.short.marker ++ r) videoUrl = true := by
      intro hc
      simp [hc] at hk
    have c2 : Contains (p ++ Shape.short.marker ++ r) shortVideoUrl = true := by
      by_contra hc
      rw [if_neg c1, if_neg hc] at hk
      split_ifs at hk
      cases hk
    have hs := Split_of_once (p ++ Shape.short.marker ++ r) p "https://youtu."
      "be/" r (by simp [String.data_append, Shape.marker, shortVideoUrl]) (by decide) h
    simp [c1, c2, hs]
  | playlist =>
    have c1 : ¬ Contains (p ++ Shape.playlist.marker ++ r) videoUrl = true := by
      intro hc
      simp [hc] at hk
    have c2 : ¬ Contains (p ++ Shape.playlist.marker ++ r) shortVideoUrl = true := by
      intro hc
      simp [c1, hc] at hk
    have c3 : Contains (p ++ Shape.playlist.marker ++ r) playlistUrl = true := by
      by_contra hc
      simp [c1, c2, hc] at hk
    have hs := Split_of_once (p ++ Shape.playlist.marker ++ r) p "https://www.youtube.com/"
      "playlist?list=" r (by simp [String.data_append, Shape.marker, playlistUrl]) (by decide) h
    simp [c1, c2, c3, hs]

/-- C5, the example of the claim: the long link with id `abc123`. -/
theorem getYoutubeId_after_marker_witness :
    shapeOf ("" ++ Shape.long.marker ++ "abc123") = some Shape.long ∧
    occurrences ("" ++ Shape.long.marker ++ "abc123") Shape.long.separator = 1 ∧
    getYoutubeId "https://www.youtube.com/watch?v=abc123" = some ("abc123", false) :=
  ⟨by decide, by decide,
    getYoutubeId_after_marker Shape.long "" "abc123" (by decide) (by decide)⟩

/-- C5, as stated, fails.  A text with two long links contains the long marker
only, and the id that comes back is neither the text behind the first marker
nor the text behind the second one.  A text with a playlist link and a short
link behind it comes back as an item, not as a playlist. -/
theorem getYoutubeId_two_links :
    "https://www.youtube.com/watch?v=abc https://www.youtube.com/watch?v=def"
      = "" ++ Shape.long.marker ++ "abc https://www.youtube.com/watch?v=def" ∧
    "https://www.youtube.com/watch?v=abc https://www.youtube.com/watch?v=def"
      = "https://www.youtube.com/watch?v=abc " ++ Shape.long.marker ++ "def" ∧
    shapeOf "https://www.youtube.com/watch?v=abc https://www.youtube.com/watch?v=def"
      = some Shape.long ∧
    getYoutubeId "https://www.youtube.com/watch?v=abc https://www.youtube.com/watch?v=def"
      = some ("abc https://www.youtube.com/", false) ∧
    getYoutubeId "https://www.youtube.com/watch?v=abc https://www.youtube.com/watch?v=def"
      ≠ some ("abc https://www.youtube.com/watch?v=def", false) ∧
    getYoutubeId "https://www.youtube.com/watch?v=abc https://www.youtube.com/watch?v=def"
      ≠ some ("def", false) ∧
    "https://www.youtube.com/playlist?list=PL1 https://youtu.be/abc"
      = "" ++ Shape.playlist.marker ++ "PL1 https://youtu.be/abc" ∧
    getYoutubeId "https://www.youtube.com/playlist?list=PL1 https://youtu.be/abc"
      = some ("abc", false) := by
  decide

/-- C7: on a video with a non-empty list of formats, `getAudioFormat` returns
a format of the list: the first one, in list order, with `AudioChannels > 0`
and a `MimeType` that contains `audio/mp4` when a format of the list has both,
and the format at index 0 otherwise. -/
theorem getAudioFormat_spec (video : Video) (h : video.Formats ≠ []) :
    ∃ f, getAudioFormat video = some f ∧ f ∈ video.Formats ∧
      ((∃ g ∈ video.Formats, 0 < g.AudioChannels ∧ Contains g.MimeType "audio/mp4" = true) →
        0 < f.AudioChannels ∧ Contains f.MimeType "audio/mp4" = true ∧
        ∃ before after, video.Formats = before ++ f :: after ∧
          ∀ g ∈ before, ¬ (0 < g.AudioChannels ∧ Contains g.MimeType "audio/mp4" = true)) ∧
      ((∀ g ∈ video.Formats, ¬ (0 < g.AudioChannels ∧ Contains g.MimeType "audio/mp4" = true)) →
        video.Formats[0]? = some f) := by
  have key : ∀ l : List Format,
      (getAudioFormatLoop l = none ∧ ∀ g ∈ l, isAudioMp4 g = false) ∨
      (∃ f before after, getAudioFormatLoop l = some f ∧ l = before ++ f :: after ∧
        isAudioMp4 f = true ∧ ∀ g ∈ before, isAudioMp4 g = false) := by
    intro l
    induction l with
    | nil => exact Or.inl ⟨rfl, by simp⟩
    | cons a l ih =>
      by_cases ha : isAudioMp4 a = true
      · exact Or.inr ⟨a, [], l, by simp [getAudioFormatLoop, ha], rfl, ha, by simp⟩
      · rcases ih with ⟨hn, hall⟩ | ⟨f, before, after, hf, hl, hq, hb⟩
        · refine Or.inl ⟨by simp [getAudioFormatLoop, ha, hn], ?_⟩
          intro g hg
          rcases List.mem_cons.1 hg with rfl | hg
          · simpa using ha
          · exact hall g hg
        · refine Or.inr ⟨f, a :: before, after, by simp [getAudioFormatLoop, ha, hf],
            by simp [hl], hq, ?_⟩
          intro g hg
          rcases List.mem_cons.1 hg with rfl | hg
          · simpa using ha
          · exact hb g hg
  have hq : ∀ g : Format, isAudioMp4 g = true ↔
      (0 < g.AudioChannels ∧ Contains g.MimeType "audio/mp4" = true) := by
    intro g
    simp [isAudioMp4]
  rcases key video.Formats with ⟨hn, hall⟩ | ⟨f, before, after, hf, hl, hqf, hb⟩
  · cases hF : video.Formats with
    | nil => exact absurd hF h
    | cons a l =>
      refine ⟨a, by rw [hF] at hn; simp [getAudioFormat, hn, hF], by simp, ?_, by simp⟩
      rintro ⟨g, hg, hgq⟩
      rw [← hF] at hg
      have := hall g hg
      rw [(hq g).2 hgq] at this
      cases this
  · refine ⟨f, by simp [getAudioFormat, hf], by simp [hl], ?_, ?_⟩
    · intro _
      refine ⟨((hq f).1 hqf).1, ((hq f).1 hqf).2, before, after, hl, ?_⟩
      intro g hg hgq
      have := hb g hg
      rw [(hq g).2 hgq] at this
      cases this
    · intro hall
      exact absurd ((hq f).1 hqf) (hall f (by simp [hl]))

/-- C7, on a list whose second format is the first audio one. -/
theorem getAudioFormat_spec_witness :
    ({ Title := "t", Author := "a",
       Formats := [{ MimeType := "video/mp4", AudioChannels := 2 },
                   { MimeType := "audio/mp4; codecs=mp4a", AudioChannels := 2 }] } : Video).Formats
      ≠ [] ∧
    ∃ f, getAudioFormat
        { Title := "t", Author := "a",
          Formats := [{ MimeType := "video/mp4", AudioChannels := 2 },
                      { MimeType := "audio/mp4; codecs=mp4a", AudioChannels := 2 }] } = some f ∧
      f.MimeType = "audio/mp4; codecs=mp4a" :=
  ⟨by decide, by
    obtain ⟨f, hf, -, -, -⟩ := getAudioFormat_spec
      { Title := "t", Author := "a",
        Formats := [{ MimeType := "video/mp4", AudioChannels := 2 },
                    { MimeType := "audio/mp4; codecs=mp4a", AudioChannels := 2 }] } (by decide)
    exact ⟨f, hf, by
      have : getAudioFormat
        { Title := "t", Author := "a",
          Formats := [{ MimeType := "video/mp4", AudioChannels := 2 },
                      { MimeType := "audio/mp4; codecs=mp4a", AudioChannels := 2 }] }
          = some { MimeType := "audio/mp4; codecs=mp4a", AudioChannels := 2 } := by decide
      rw [this] at hf
      cases hf
      rfl⟩⟩

/-- C6, at a short link: `getYoutubeId` returns the id `abc123`, yet
`isYoutubeResource` is false and the round of the watcher leaves the state as
it is: `download` is not called. -/
theorem short_link_is_dropped (w : World) :
    getYoutubeId "https://youtu.be/abc123" = some ("abc123", false) ∧
    isYoutubeResource "https://youtu.be/abc123" = false ∧
    clipboardWatcher w (boot initialGlobals) "https://youtu.be/abc123"
      = some (boot initialGlobals) := by
  refine ⟨by decide, by decide, ?_⟩
  have h : isYoutubeResource "https://youtu.be/abc123" = false := by decide
  simp [clipboardWatcher, h, boot]

/-- C10, at a file that gives `LogPath` only, and at a file that does not
decode: `readConfigFile` stores the zero values 0 and the empty text, not the
defaults, and the capacity of `workers` becomes 0; the defaults stay when
`config.json` does not exist. -/
theorem readConfigFile_zero_values :
    readConfigFile { MaxDownloads := none, LogPath := some "x.log", DownloadPath := none,
                     err := none }
      = some ({ maxDownloads := 0, logPath := "x.log", downloadPath := "", workers := 0 }, []) ∧
    readConfigFile { MaxDownloads := none, LogPath := none, DownloadPath := none,
                     err := some "unexpected end of JSON input" }
      = some ({ maxDownloads := 0, logPath := "", downloadPath := "", workers := 0 },
              ["unexpected end of JSON input"]) ∧
    configure true { MaxDownloads := none, LogPath := none, DownloadPath := none,
                     err := some "unexpected end of JSON input" }
      = some { maxDownloads := 0, logPath := "", downloadPath := "", workers := 0 } ∧
    configure false { MaxDownloads := none, LogPath := none, DownloadPath := none, err := none }
      = some { maxDownloads := 5, logPath := "./log.log", downloadPath := ".", workers := 5 } := by
  decide

/-! ## Lemmas on the goroutines -/

theorem logErr_noSlot (err : Option String) : ∀ e ∈ logErr err, isSlot e = false := by
  cases err <;> simp [logErr, isSlot]

theorem downloadAudioBody_noSlot (w : World) (video : Option Video) (filePath : String) :
    ∀ e ∈ (downloadAudioBody w video filePath).1, isSlot e = false := by
  intro e he
  unfold downloadAudioBody at he
  cases video with
  | none => simp at he
  | some v =>
    simp only at he
    cases hf : getAudioFormat v with
    | none =>
      simp only [hf, List.mem_singleton] at he
      subst he
      rfl
    | some f =>
      simp only [hf] at he
      split at he <;>
        · simp only [List.mem_append, List.mem_cons, List.mem_singleton, List.not_mem_nil,
            or_false] at he
          rcases he with ((rfl | rfl | h) | rfl | h) | h
          · rfl
          · rfl
          · exact logErr_noSlot _ e h
          · rfl
          · exact logErr_noSlot _ e h
          · rcases h with rfl | rfl | rfl <;> rfl

theorem downloadAudioTail_noSlot (wg : Option Nat) (b : Bool) :
    ∀ e ∈ (downloadAudioDeferred wg).tail ++ (if b then [Event.crash] else []),
      isSlot e = false := by
  cases wg <;> cases b <;> simp [downloadAudioDeferred, isSlot]

theorem downloadAudio_shape (w : World) (video : Option Video) (filePath : String)
    (wg : Option Nat) :
    downloadAudio w video filePath wg
      = Event.acquire :: (downloadAudioBody w video filePath).1 ++ Event.release ::
          ((downloadAudioDeferred wg).tail ++
            (if (downloadAudioBody w video filePath).2 then [Event.crash] else [])) := by
  cases wg <;> simp [downloadAudio, downloadAudioDeferred]

theorem chanRun_noSlot (cap n : Nat) (l rest : List Event) (h : ∀ e ∈ l, isSlot e = false) :
    chanRun cap n (l ++ rest) = chanRun cap n rest := by
  induction l with
  | nil => rfl
  | cons e l ih =>
    have he : isSlot e = false := h e (List.mem_cons_self e l)
    have hl := ih (fun x hx => h x (List.mem_cons_of_mem e hx))
    cases e <;> first | (simp [isSlot] at he; done) | simpa [chanRun] using hl

theorem chanRun_cons_noSlot (cap n : Nat) (e : Event) (rest : List Event)
    (h : isSlot e = false) : chanRun cap n (e :: rest) = chanRun cap n rest :=
  chanRun_noSlot cap n [e] rest (by simpa using h)

theorem chanRun_all_noSlot (cap n : Nat) (l : List Event) (h : ∀ e ∈ l, isSlot e = false) :
    chanRun cap n l = some n := by
  have := chanRun_noSlot cap n l [] h
  simpa [chanRun] using this

theorem count_noSlot (l : List Event) (h : ∀ e ∈ l, isSlot e = false) :
    l.count Event.acquire = 0 ∧ l.count Event.release = 0 := by
  constructor <;>
    · rw [List.count_eq_zero]
      intro hm
      have := h _ hm
      simp [isSlot] at this

theorem chanRun_acquire (cap n : Nat) (es : List Event) :
    chanRun cap n (Event.acquire :: es) = (chanSend cap n).bind (fun m => chanRun cap m es) :=
  rfl

theorem chanRun_release (cap n : Nat) (es : List Event) :
    chanRun cap n (Event.release :: es) = (chanRecv n).bind (fun m => chanRun cap m es) :=
  rfl

theorem chanRun_downloadAudio (w : World) (video : Option Video) (filePath : String)
    (wg : Option Nat) (cap n : Nat) (h : n < cap) :
    chanRun cap n (downloadAudio w video filePath wg) = some n := by
  rw [downloadAudio_shape, List.cons_append, chanRun_acquire]
  simp only [chanSend, h, if_true, Option.some_bind]
  rw [chanRun_noSlot _ _ _ _ (downloadAudioBody_noSlot w video filePath), chanRun_release]
  simp only [chanRecv, Nat.succ_pos, if_true, Option.some_bind, Nat.add_sub_cancel]
  exact chanRun_all_noSlot _ _ _ (downloadAudioTail_noSlot wg _)

theorem playlistLoop_noSlot (w : World) (folderPath : String) (wg : Nat)
    (l : List PlaylistEntry) : ∀ e ∈ playlistLoop w folderPath wg l, isSlot e = false := by
  induction l with
  | nil => simp [playlistLoop]
  | cons entry l ih =>
    intro e he
    simp only [playlistLoop, playlistMember, List.mem_append, List.mem_cons,
      List.mem_singleton, List.not_mem_nil, or_false] at he
    rcases he with ((rfl | h) | rfl) | h
    · rfl
    · exact logErr_noSlot _ e h
    · rfl
    · exact ih e h

theorem downloadPlaylist_noSlot (w : World) (downloadPath url : String) (wg : Nat) :
    ∀ e ∈ downloadPlaylist w downloadPath url wg, isSlot e = false := by
  intro e he
  unfold downloadPlaylist at he
  rcases List.mem_append.1 he with h | h
  · exact logErr_noSlot _ e h
  · split at h
    · simp only [List.mem_singleton] at h
      subst h
      rfl
    · simp only [List.mem_append, List.mem_cons, List.mem_singleton, List.not_mem_nil,
        or_false] at h
      rcases h with ((rfl | rfl) | h) | rfl | rfl
      · rfl
      · rfl
      · exact playlistLoop_noSlot _ _ _ _ e h
      · rfl
      · rfl

theorem set_split {α : Type} (l : List α) (i : Nat) (a : α) (h : l[i]? = some a) :
    ∃ before after, l = before ++ a :: after ∧ ∀ b, l.set i b = before ++ b :: after := by
  induction l generalizing i with
  | nil => simp at h
  | cons x l ih =>
    cases i with
    | zero =>
      simp only [List.getElem?_cons_zero, Option.some.injEq] at h
      subst h
      exact ⟨[], l, rfl, fun b => rfl⟩
    | succ i =>
      simp only [List.getElem?_cons_succ] at h
      obtain ⟨before, after, hl, hs⟩ := ih i h
      exact ⟨x :: before, after, by simp [hl], fun b => by simp [hs b]⟩

theorem InvP_pass (cap occ : Nat) (procs : List Proc) (i : Nat) (p : Proc) (e : Event)
    (rest : List Event) (hinv : InvP cap occ procs) (hp : procs[i]? = some p)
    (hprog : p.prog = e :: rest) (he : isSlot e = false) :
    InvP cap occ (procs.set i { prog := rest, holding := p.holding }) := by
  obtain ⟨before, after, hl, hs⟩ := set_split procs i p hp
  obtain ⟨hc, hle, hok⟩ := hinv
  rw [hs]
  subst hl
  refine ⟨?_, hle, ?_⟩
  · simpa [List.countP_append, List.countP_cons] using hc
  · intro q hq
    rcases List.mem_append.1 hq with hq | hq
    · exact hok q (List.mem_append_left _ hq)
    · rcases List.mem_cons.1 hq with rfl | hq
      · have := hok p (by simp)
        unfold okProc at this ⊢
        rw [hprog, chanRun_cons_noSlot _ _ _ _ he] at this
        exact this
      · exact hok q (List.mem_append_right _ (List.mem_cons_of_mem _ hq))

theorem InvP_append (cap occ : Nat) (procs : List Proc) (prog : List Event)
    (hinv : InvP cap occ procs) (hprog : chanRun 1 0 prog = some 0) :
    InvP cap occ (procs ++ [{ prog := prog, holding := false }]) := by
  obtain ⟨hc, hle, hok⟩ := hinv
  refine ⟨by simpa [List.countP_append, List.countP_cons] using hc, hle, ?_⟩
  intro q hq
  rcases List.mem_append.1 hq with hq | hq
  · exact hok q hq
  · simp only [List.mem_singleton] at hq
    subst hq
    simp [okProc, hprog]

theorem InvP_acquire (cap occ : Nat) (procs : List Proc) (i : Nat) (p : Proc)
    (rest : List Event) (hinv : InvP cap occ procs) (hp : procs[i]? = some p)
    (hprog : p.prog = Event.acquire :: rest) (hfree : occ < cap) :
    InvP cap (occ + 1) (procs.set i { prog := rest, holding := true }) := by
  obtain ⟨before, after, hl, hs⟩ := set_split procs i p hp
  obtain ⟨hc, hle, hok⟩ := hinv
  rw [hs]
  subst hl
  have hpok := hok p (by simp)
  unfold okProc at hpok
  rw [hprog] at hpok
  have hh : p.holding = false := by
    cases hh : p.holding with
    | false => rfl
    | true => simp [hh, chanRun, chanSend] at hpok
  refine ⟨?_, hfree, ?_⟩
  · simp only [List.countP_append, List.countP_cons, hh] at hc
    simp only [List.countP_append, List.countP_cons]
    simp at hc ⊢
    omega
  · intro q hq
    rcases List.mem_append.1 hq with hq | hq
    · exact hok q (List.mem_append_left _ hq)
    · rcases List.mem_cons.1 hq with rfl | hq
      · simpa [okProc, hh, chanRun, chanSend] using hpok
      · exact hok q (List.mem_append_right _ (List.mem_cons_of_mem _ hq))

theorem InvP_release (cap occ : Nat) (procs : List Proc) (i : Nat) (p : Proc)
    (rest : List Event) (hinv : InvP cap occ procs) (hp : procs[i]? = some p)
    (hprog : p.prog = Event.release :: rest) :
    InvP cap (occ - 1) (procs.set i { prog := rest, holding := false }) := by
  obtain ⟨before, after, hl, hs⟩ := set_split procs i p hp
  obtain ⟨hc, hle, hok⟩ := hinv
  rw [hs]
  subst hl
  have hpok := hok p (by simp)
  unfold okProc at hpok
  rw [hprog] at hpok
  have hh : p.holding = true := by
    cases hh : p.holding with
    | true => rfl
    | false => simp [hh, chanRun, chanRecv] at hpok
  refine ⟨?_, by omega, ?_⟩
  · simp only [List.countP_append, List.countP_cons, hh] at hc
    simp only [List.countP_append, List.countP_cons]
    simp at hc ⊢
    omega
  · intro q hq
    rcases List.mem_append.1 hq with hq | hq
    · exact hok q (List.mem_append_left _ hq)
    · rcases List.mem_cons.1 hq with rfl | hq
      · simpa [okProc, hh, chanRun, chanRecv] using hpok
      · exact hok q (List.mem_append_right _ (List.mem_cons_of_mem _ hq))

theorem effect_Inv (w : World) (c : Nat) (s t : Sys) (i : Nat) (p : Proc) (e : Event)
    (rest : List Event) (hinv : Inv c s) (hp : s.procs[i]? = some p)
    (hprog : p.prog = e :: rest) (h : effect w s i p.holding rest e = some t) : Inv c t := by
  obtain ⟨hcap, hP⟩ := hinv
  cases e with
  | acquire =>
    simp only [effect, chanSend, Option.map_eq_some'] at h
    obtain ⟨n, hn, rfl⟩ := h
    split at hn
    · rename_i hfree
      cases hn
      exact ⟨hcap, InvP_acquire c s.occupied s.procs i p rest hP hp hprog (hcap ▸ hfree)⟩
    · cases hn
  | release =>
    simp only [effect, chanRecv, Option.map_eq_some'] at h
    obtain ⟨n, hn, rfl⟩ := h
    split at hn
    · cases hn
      exact ⟨hcap, InvP_release c s.occupied s.procs i p rest hP hp hprog⟩
    · cases hn
  | wgDone g =>
    have hpass := InvP_pass c s.occupied s.procs i p _ rest hP hp hprog rfl
    simp only [effect] at h
    split at h <;>
      · cases h
        exact ⟨hcap, hpass⟩
  | wgWait g =>
    have hpass := InvP_pass c s.occupied s.procs i p _ rest hP hp hprog rfl
    simp only [effect] at h
    split at h
    · cases h
      exact ⟨hcap, hpass⟩
    · cases h
  | spawn video filePath wg =>
    have hpass := InvP_pass c s.occupied s.procs i p _ rest hP hp hprog rfl
    simp only [effect] at h
    cases h
    exact ⟨hcap, InvP_append c s.occupied _ _ hpass
      (chanRun_downloadAudio w video filePath wg 1 0 (by decide))⟩
  | wgAdd g =>
    have hpass := InvP_pass c s.occupied s.procs i p _ rest hP hp hprog rfl
    simp only [effect] at h
    cases h
    exact ⟨hcap, hpass⟩
  | log line =>
    have hpass := InvP_pass c s.occupied s.procs i p _ rest hP hp hprog rfl
    simp only [effect] at h
    cases h
    exact ⟨hcap, hpass⟩
  | crash =>
    have hpass := InvP_pass c s.occupied s.procs i p _ rest hP hp hprog rfl
    simp only [effect] at h
    cases h
    exact ⟨hcap, hpass⟩
  | mkdir path =>
    have hpass := InvP_pass c s.occupied s.procs i p _ rest hP hp hprog rfl
    simp only [effect] at h
    cases h
    exact ⟨hcap, hpass⟩
  | getStream =>
    have hpass := InvP_pass c s.occupied s.procs i p _ rest hP hp hprog rfl
    simp only [effect] at h
    cases h
    exact ⟨hcap, hpass⟩
  | create fileName =>
    have hpass := InvP_pass c s.occupied s.procs i p _ rest hP hp hprog rfl
    simp only [effect] at h
    cases h
    exact ⟨hcap, hpass⟩
  | copy fileName =>
    have hpass := InvP_pass c s.occupied s.procs i p _ rest hP hp hprog rfl
    simp only [effect] at h
    cases h
    exact ⟨hcap, hpass⟩
  | close fileName =>
    have hpass := InvP_pass c s.occupied s.procs i p _ rest hP hp hprog rfl
    simp only [effect] at h
    cases h
    exact ⟨hcap, hpass⟩

theorem exec_Inv (w : World) (c : Nat) (s t : Sys) (i : Nat) (hinv : Inv c s)
    (h : exec w s i = some t) : Inv c t := by
  unfold exec at h
  split at h
  · cases h
  · cases hp : s.procs[i]? with
    | none => simp [hp] at h
    | some p =>
      cases hprog : p.prog with
      | nil => simp [hp, hprog] at h
      | cons e rest =>
        simp only [hp, hprog] at h
        exact effect_Inv w c s t i p e rest hinv hp hprog h

theorem download_Inv (w : World) (c : Nat) (s : Sys) (url : String) (hinv : Inv c s) :
    Inv c (download w s url).1 := by
  obtain ⟨hcap, hP⟩ := hinv
  unfold download
  split
  · exact ⟨hcap, hP⟩
  · split
    · exact ⟨hcap, hP⟩
    · split
      · exact ⟨hcap, InvP_append c s.occupied _ _ hP
          (chanRun_all_noSlot 1 0 _ (downloadPlaylist_noSlot w _ _ _))⟩
      · exact ⟨hcap, InvP_append c s.occupied _ _ hP
          (chanRun_downloadAudio w _ _ _ 1 0 (by decide))⟩

theorem clipboardWatcher_Inv (w : World) (c : Nat) (s t : Sys) (data : String)
    (hinv : Inv c s) (h : clipboardWatcher w s data = some t) : Inv c t := by
  unfold clipboardWatcher at h
  split at h
  · cases h
  · split at h
    · have hd := download_Inv w c s data hinv
      split at h
      · rename_i u e hu
        cases h
        rw [hu] at hd
        exact hd
      · rename_i u hu
        cases h
        rw [hu] at hd
        exact hd
    · cases h
      exact hinv

theorem run_Inv (w : World) (c : Nat) (acts : List Action) (s t : Sys) (hinv : Inv c s)
    (h : run w s acts = some t) : Inv c t := by
  induction acts generalizing s with
  | nil =>
    cases h
    exact hinv
  | cons a acts ih =>
    simp only [run, Option.bind_eq_some] at h
    obtain ⟨u, hu, hrun⟩ := h
    refine ih u ?_ hrun
    cases a with
    | clip data => exact clipboardWatcher_Inv w c s u data hinv hu
    | sched i => exact exec_Inv w c s u i hinv hu

theorem boot_Inv (g : Globals) : Inv g.workers (boot g) :=
  ⟨rfl, rfl, Nat.zero_le _, by simp [boot]⟩

theorem step_crashed (w : World) (s : Sys) (a : Action) (h : s.crashed = true) :
    step w s a = none := by
  cases a <;> simp [step, clipboardWatcher, exec, h]

/-! ## Theorems on the goroutines -/

/-- C1: whatever the video, the file path, the wait group and the outcome of
opening the stream, of creating the file and of the copy, a `downloadAudio`
task sends on `workers` once and receives from it once, the send first; run
where a slot is free, it leaves in the channel as many values as it found. -/
theorem downloadAudio_slot_once (w : World) (video : Option Video) (filePath : String)
    (wg : Option Nat) (cap n : Nat) (h : n < cap) :
    (downloadAudio w video filePath wg).count Event.acquire = 1 ∧
    (downloadAudio w video filePath wg).count Event.release = 1 ∧
    (∃ body rest,
      downloadAudio w video filePath wg = Event.acquire :: body ++ Event.release :: rest ∧
      (∀ e ∈ body, e ≠ Event.acquire ∧ e ≠ Event.release) ∧
      (∀ e ∈ rest, e ≠ Event.acquire ∧ e ≠ Event.release)) ∧
    chanRun cap n (downloadAudio w video filePath wg) = some n := by
  have hb := downloadAudioBody_noSlot w video filePath
  have ht := downloadAudioTail_noSlot wg (downloadAudioBody w video filePath).2
  have hne : ∀ l : List Event, (∀ e ∈ l, isSlot e = false) →
      ∀ e ∈ l, e ≠ Event.acquire ∧ e ≠ Event.release := by
    intro l hl e he
    have := hl e he
    constructor <;>
      · rintro rfl
        cases this
  refine ⟨?_, ?_, ⟨_, _, downloadAudio_shape w video filePath wg, hne _ hb, hne _ ht⟩,
    chanRun_downloadAudio w video filePath wg cap n h⟩
  · rw [downloadAudio_shape]
    simp [List.count_cons, (count_noSlot _ hb).1, (count_noSlot _ ht).1]
  · rw [downloadAudio_shape]
    simp [List.count_cons, (count_noSlot _ hb).2, (count_noSlot _ ht).2]

/-- C1, on a task whose video did not resolve, with one slot taken of two. -/
theorem downloadAudio_slot_once_witness :
    1 < 2 ∧ chanRun 2 1 (downloadAudio demoWorld none "" (some 0)) = some 1 :=
  ⟨by decide, (downloadAudio_slot_once demoWorld none "" (some 0) 2 1 (by decide)).2.2.2⟩

/-- C2: in every state that the program reaches from its start, by clipboard
texts and goroutine steps in any order, the goroutines that have sent on
`workers` and not yet received are at most `cap(workers)`. -/
theorem holders_le_workers (w : World) (g : Globals) (acts : List Action) (s : Sys)
    (h : run w (boot g) acts = some s) : holders s ≤ g.workers := by
  obtain ⟨-, hc, hle, -⟩ := run_Inv w g.workers acts (boot g) s (boot_Inv g) h
  unfold holders
  omega

/-- C2, on a playlist of three members under a capacity of two: after two
members have taken a slot, the third has no step. -/
theorem holders_le_workers_witness :
    ∃ s, run demoWorld (boot twoWorkers) (fanOut ++ [Action.sched 1, Action.sched 3]) = some s ∧
      holders s = 2 ∧ exec demoWorld s 2 = none ∧ holders s ≤ twoWorkers.workers := by
  have h : (run demoWorld (boot twoWorkers) (fanOut ++ [Action.sched 1, Action.sched 3])).isSome
      = true := by decide
  obtain ⟨s, hs⟩ := Option.isSome_iff_exists.1 h
  have h2 : (run demoWorld (boot twoWorkers) (fanOut ++ [Action.sched 1, Action.sched 3])).map
      (fun s => (holders s, exec demoWorld s 2)) = some (2, none) := by decide
  rw [hs] at h2
  simp only [Option.map_some', Option.some.injEq, Prod.mk.injEq] at h2
  exact ⟨s, hs, h2.1, h2.2, holders_le_workers demoWorld twoWorkers _ s hs⟩

/-- C3, at a playlist of three members whose member 2 does not resolve: the
task of member 2 is started on the nil video and panics, and the program ends
there.  In the first run members 1 and 3 are still to start; in the second
they have ended.  In both the line `Playlist Finished` is not logged and no
step is left. -/
theorem playlist_unresolved_member_crashes :
    (run demoWorld (boot initialGlobals) (fanOut ++ List.replicate 4 (Action.sched 2))).map
        (fun s => (s.crashed, s.wgs, s.procs.map (fun p => p.prog.length), s.logs))
      = some (true, [2], [2, 9, 0, 9],
          ["Downloading Playlist mix by dj\n", "cannot resolve m2"]) ∧
    (run demoWorld (boot initialGlobals)
        (fanOut ++ List.replicate 9 (Action.sched 1) ++ List.replicate 9 (Action.sched 3)
          ++ List.replicate 4 (Action.sched 2))).map
        (fun s => (s.crashed, s.procs.map (fun p => p.prog),
          decide ("Playlist Finished mix by dj\n" ∈ s.logs)))
      = some (true,
          [[Event.wgWait 0, Event.log "Playlist Finished mix by dj\n"], [], [], []], false) ∧
    ∀ s a, s.crashed = true → step demoWorld s a = none := by
  refine ⟨by decide, by decide, fun s a h => step_crashed demoWorld s a h⟩

/-- C4, at a link whose video does not resolve: `download` logs the error and
starts `downloadAudio` on the nil video all the same; the task takes a slot,
panics, gives the slot back, and the program ends.  The loop of
`downloadPlaylist` starts the task of an unresolved member in the same way.
In every world the task on a nil video is the send, the deferred function and
the crash. -/
theorem download_unresolved_video_runs :
    (demoWorld.GetVideo "https://www.youtube.com/watch?v=gone").1 = none ∧
    (run demoWorld (boot initialGlobals) [Action.clip "https://www.youtube.com/watch?v=gone"]).map
        (fun s => (s.logs, s.procs))
      = some (["cannot resolve gone"],
          [{ prog := downloadAudio demoWorld none "" none, holding := false }]) ∧
    downloadAudio demoWorld none "" none = [Event.acquire, Event.release, Event.crash] ∧
    (run demoWorld (boot initialGlobals)
        (Action.clip "https://www.youtube.com/watch?v=gone" ::
          List.replicate 3 (Action.sched 0))).map (fun s => (s.crashed, s.occupied))
      = some (true, 0) ∧
    (demoWorld.VideoFromPlaylistEntry ⟨"m2"⟩).1 = none ∧
    (run demoWorld (boot initialGlobals) fanOut).map (fun s => s.procs[2]?)
      = some (some { prog := downloadAudio demoWorld none "./mix/" (some 0), holding := false }) ∧
    ∀ (w : World) (filePath : String) (wg : Option Nat),
      downloadAudio w none filePath wg
        = Event.acquire :: downloadAudioDeferred wg ++ [Event.crash] := by
  refine ⟨by decide, by decide, by decide, by decide, by decide, by decide, ?_⟩
  intro w filePath wg
  simp [downloadAudio, downloadAudioBody]

end Tubemp3
